import Mathlib

/-!
Verification of the Merkle tree core of the merkdir repository
(src/merkle/merkle.go), shallowly embedded in Lean 4.

Conventions of the embedding:
* Go byte slices (`[]byte`) are `List Nat` (each entry one byte value).
* The blake3 hash is an abstract parameter `H : List Nat → List Nat`;
  every `hasher.Write` sequence in the source becomes `H` applied to the
  concatenation of the written bytes, in order.
* Go `uint64` values are `Nat`; the one place where 64-bit wraparound is
  observable (`x--` inside `flp2`) is modeled with an explicit `% 2 ^ 64`.
* A Go `*Node` (possibly nil pointer) is the inductive `Node`, whose
  `nil` constructor is the nil pointer.  Dereferencing nil (a Go panic)
  surfaces as the distinguished error `MError.nilPanic`.
* Fallible functions return `Except MError α`.
-/

set_option maxRecDepth 4000

namespace Merkdir

/-- Function `flp2` from merkle.go: previous power of two, by bit smearing.
`x--` is a `uint64` decrement, hence the `% 2 ^ 64`. -/
def flp2 (x : Nat) : Nat :=
  let x0 := (x + (2 ^ 64 - 1)) % 2 ^ 64
  let x1 := x0 ||| (x0 >>> 1)
  let x2 := x1 ||| (x1 >>> 2)
  let x3 := x2 ||| (x2 >>> 4)
  let x4 := x3 ||| (x3 >>> 8)
  let x5 := x4 ||| (x4 >>> 16)
  let x6 := x5 ||| (x5 >>> 32)
  x6 - (x6 >>> 1)

/-- The six-step bit smear of `flp2`, on an already decremented argument. -/
def smear (x : Nat) : Nat :=
  let x1 := x ||| (x >>> 1)
  let x2 := x1 ||| (x1 >>> 2)
  let x3 := x2 ||| (x2 >>> 4)
  let x4 := x3 ||| (x3 >>> 8)
  let x5 := x4 ||| (x4 >>> 16)
  x5 ||| (x5 >>> 32)

lemma flp2_eq_smear (n : Nat) (h1 : 1 ≤ n) (h64 : n < 2 ^ 64) :
    flp2 n = smear (n - 1) - (smear (n - 1)) >>> 1 := by
  have hdec : (n + (2 ^ 64 - 1)) % 2 ^ 64 = n - 1 := by
    have h : n + (2 ^ 64 - 1) = (n - 1) + 1 * 2 ^ 64 := by omega
    rw [h, Nat.add_mul_mod_self_right, Nat.mod_eq_of_lt (by omega)]
  simp only [flp2, smear, hdec]

/-- One smear step widens the window of bit positions covered. -/
lemma smear_step (x y w : Nat)
    (hy : ∀ i, y.testBit i = true ↔ ∃ j, j < w ∧ x.testBit (i + j) = true) :
    ∀ i, (y ||| y >>> w).testBit i = true ↔
      ∃ j, j < 2 * w ∧ x.testBit (i + j) = true := by
  intro i
  rw [Nat.testBit_lor, Bool.or_eq_true, Nat.testBit_shiftRight, hy i, hy (w + i)]
  constructor
  · rintro (⟨j, hj, hbit⟩ | ⟨j, hj, hbit⟩)
    · exact ⟨j, by omega, hbit⟩
    · exact ⟨w + j, by omega, by rwa [show i + (w + j) = w + i + j by omega]⟩
  · rintro ⟨j, hj, hbit⟩
    by_cases hjw : j < w
    · exact Or.inl ⟨j, hjw, hbit⟩
    · exact Or.inr ⟨j - w, by omega, by rwa [show w + i + (j - w) = i + j by omega]⟩

/-- After the six smear steps every bit within 64 positions below a set bit
is set. -/
lemma smear_window (x : Nat) :
    ∀ i, (smear x).testBit i = true ↔ ∃ j, j < 64 ∧ x.testBit (i + j) = true := by
  have h0 : ∀ i, x.testBit i = true ↔ ∃ j, j < 1 ∧ x.testBit (i + j) = true := by
    intro i
    constructor
    · intro h; exact ⟨0, by omega, by simpa using h⟩
    · rintro ⟨j, hj, h⟩; interval_cases j; simpa using h
  have h1 := smear_step x x 1 h0
  have h2 := smear_step x _ 2 h1
  have h3 := smear_step x _ 4 h2
  have h4 := smear_step x _ 8 h3
  have h5 := smear_step x _ 16 h4
  have h6 := smear_step x _ 32 h5
  intro i
  rw [show smear x = (let x1 := x ||| (x >>> 1)
    let x2 := x1 ||| (x1 >>> 2)
    let x3 := x2 ||| (x2 >>> 4)
    let x4 := x3 ||| (x3 >>> 8)
    let x5 := x4 ||| (x4 >>> 16)
    x5 ||| (x5 >>> 32)) from rfl]
  simp only
  exact (h6 i).trans (by norm_num)

/-- The bit at position `size x - 1` of a positive `x` is set. -/
lemma testBit_size_pred (x : Nat) (hx : 0 < x) :
    x.testBit (Nat.size x - 1) = true := by
  have hsz : 0 < Nat.size x := Nat.size_pos.mpr hx
  have hlo : 2 ^ (Nat.size x - 1) ≤ x := Nat.lt_size.mp (by omega)
  have hhi : x < 2 ^ Nat.size x := Nat.lt_size_self x
  rw [Nat.testBit_to_div_mod]
  have hdiv : x / 2 ^ (Nat.size x - 1) = 1 := by
    apply Nat.div_eq_of_lt_le (by omega)
    have : 2 ^ Nat.size x = 2 ^ (Nat.size x - 1) * 2 := by
      rw [← pow_succ]
      congr 1
      omega
    omega
  simp [hdiv]

/-- Bits at or above `size x` are clear. -/
lemma testBit_ge_size (x i : Nat) (h : Nat.size x ≤ i) : x.testBit i = false := by
  apply Nat.testBit_eq_false_of_lt
  calc x < 2 ^ Nat.size x := Nat.lt_size_self x
    _ ≤ 2 ^ i := Nat.pow_le_pow_right (by omega) h

/-- The smeared value is all ones below the size of `x`. -/
lemma smear_eq (x : Nat) (hx : 0 < x) (h64 : x < 2 ^ 64) :
    smear x = 2 ^ Nat.size x - 1 := by
  have hsz : Nat.size x ≤ 64 := Nat.size_le.mpr h64
  have hszpos : 0 < Nat.size x := Nat.size_pos.mpr hx
  apply Nat.eq_of_testBit_eq
  intro i
  rw [Nat.testBit_two_pow_sub_one]
  cases hb : (smear x).testBit i with
  | true =>
    rcases (smear_window x i).mp hb with ⟨j, _, hbit⟩
    have : i + j < Nat.size x := by
      by_contra hcon
      rw [testBit_ge_size x (i + j) (by omega)] at hbit
      exact Bool.false_ne_true hbit
    symm
    simp only [decide_eq_true_eq]
    omega
  | false =>
    symm
    simp only [decide_eq_false_iff_not]
    intro hi
    have hex : ∃ j, j < 64 ∧ x.testBit (i + j) = true := by
      refine ⟨Nat.size x - 1 - i, by omega, ?_⟩
      rw [show i + (Nat.size x - 1 - i) = Nat.size x - 1 by omega]
      exact testBit_size_pred x hx
    rw [(smear_window x i).mpr hex] at hb
    simp at hb

/-- Value of `flp2 n`: the exact power `2 ^ (size (n-1) - 1)` when `2 ≤ n < 2 ^ 64`. -/
lemma flp2_eq_pow (n : Nat) (h2 : 2 ≤ n) (h64 : n < 2 ^ 64) :
    flp2 n = 2 ^ (Nat.size (n - 1) - 1) := by
  have hpos : 0 < n - 1 := by omega
  have hsm := smear_eq (n - 1) hpos (by omega)
  have hszpos : 0 < Nat.size (n - 1) := Nat.size_pos.mpr hpos
  rw [flp2_eq_smear n (by omega) h64, hsm, Nat.shiftRight_eq_div_pow]
  have hsplit : 2 ^ Nat.size (n - 1) = 2 ^ (Nat.size (n - 1) - 1) * 2 := by
    rw [← pow_succ]
    congr 1
    omega
  have hp : 0 < 2 ^ (Nat.size (n - 1) - 1) := Nat.pos_pow_of_pos _ (by omega)
  rw [hsplit]
  omega

/-- Size sandwich: `2 ^ (size x - 1) ≤ x < 2 ^ size x` for positive `x`. -/
lemma size_sandwich (x : Nat) (hx : 0 < x) :
    2 ^ (Nat.size x - 1) ≤ x ∧ x < 2 ^ Nat.size x :=
  ⟨Nat.lt_size.mp (by have := Nat.size_pos.mpr hx; omega), Nat.lt_size_self x⟩

/-- Bounds of `flp2` used throughout: strictly below `n`, at least half of `n`. -/
lemma flp2_bounds (n : Nat) (h2 : 2 ≤ n) (h64 : n < 2 ^ 64) :
    1 ≤ flp2 n ∧ flp2 n < n ∧ n ≤ 2 * flp2 n := by
  rw [flp2_eq_pow n h2 h64]
  obtain ⟨hlo, hhi⟩ := size_sandwich (n - 1) (by omega)
  have hsplit : 2 ^ Nat.size (n - 1) = 2 * 2 ^ (Nat.size (n - 1) - 1) := by
    rw [← pow_succ']
    congr 1
    have := Nat.size_pos.mpr (show 0 < n - 1 by omega)
    omega
  refine ⟨Nat.pos_pow_of_pos _ (by omega), by omega, by omega⟩

/-- A Go `*Node` from merkle.go.  `nil` is the nil pointer; `mk` carries the
five struct fields `Hash`, `Name`, `Left`, `Right`, `Nonce` (children are
themselves `*Node`). -/
inductive Node : Type where
  | nil : Node
  | mk (hash : List Nat) (name : String) (left right : Node) (nonce : List Nat) : Node
deriving DecidableEq, Repr

/-- Field `Hash` (zero value `[]` on the nil pointer; never read there by the
verified functions). -/
def Node.hash : Node → List Nat
  | .nil => []
  | .mk h _ _ _ _ => h

lemma Node.hash_mk (h : List Nat) (nm : String) (l r : Node) (nn : List Nat) :
    (Node.mk h nm l r nn).hash = h := rfl

/-- Field `Name`. -/
def Node.name : Node → String
  | .nil => ""
  | .mk _ nm _ _ _ => nm

/-- Field `Left`. -/
def Node.left : Node → Node
  | .nil => .nil
  | .mk _ _ l _ _ => l

/-- Field `Right`. -/
def Node.right : Node → Node
  | .nil => .nil
  | .mk _ _ _ r _ => r

/-- Field `Nonce`. -/
def Node.nonce : Node → List Nat
  | .nil => []
  | .mk _ _ _ _ nn => nn

/-- The `InclusionProof` struct from merkle.go. -/
structure InclusionProof : Type where
  leafIndex : Nat
  treeSize : Nat
  nonce : List Nat
  proof : List (List Nat)
deriving DecidableEq, Repr

/-- Outcomes of the fallible functions.  The first three correspond to the
spec's `IndexOutOfRange`, `TreeSizeMismatch` and `ProofSizeMismatch` error
kinds (Go error strings "given leaf index is impossible" / "invalid leaf
index", "given number of leaves is incorrect", "tree size and leaf index
mismatch"); `nilPanic` marks a Go nil-pointer dereference. -/
inductive MError : Type where
  | indexOutOfRange
  | treeSizeMismatch
  | proofSizeMismatch
  | nilPanic
deriving DecidableEq, Repr

/-- Function `HashLeaf` from merkle.go: domain tag `0x00`, then the nonce, then the
file bytes, fed to blake3 (the abstract `H`). -/
def HashLeaf (H : List Nat → List Nat) (data nonce : List Nat) : List Nat :=
  H (0 :: (nonce ++ data))

/-- Function `CreateTree` from merkle.go, with an explicit recursion-depth fuel.
Fuel only matters for leaf lists longer than any Go slice can be
(`flp2` on such a length need not decrease the split); with
`fuel ≥ length < 2 ^ 64` it is never exhausted (`createTreeF_fuel`). -/
def CreateTreeF (H : List Nat → List Nat) : Nat → List Node → Node
  | _, [] => .mk (H []) "" .nil .nil []
  | _, [l] => l
  | 0, _ => .nil
  | fuel + 1, leaves =>
    let p2 := flp2 leaves.length
    let left := CreateTreeF H fuel (leaves.take p2)
    let right := CreateTreeF H fuel (leaves.drop p2)
    .mk (H (1 :: (left.hash ++ right.hash))) "" left right []

/-- Function `CreateTree` from merkle.go. -/
def CreateTree (H : List Nat → List Nat) (leaves : List Node) : Node :=
  CreateTreeF H leaves.length leaves

/-- Function `GetInclusionProof` from merkle.go. -/
def GetInclusionProof : Node → Nat → Nat → Except MError InclusionProof
  | root, n, m =>
    if m ≥ n then .error .indexOutOfRange
    else
      match root with
      | .nil => .error .nilPanic
      | .mk _ _ left right nonce =>
        if n = 1 then
          .ok { leafIndex := m, treeSize := n, nonce := nonce, proof := [] }
        else
          let k := flp2 n
          if m < k then
            match right with
            | .nil => .error .treeSizeMismatch
            | .mk rh _ _ _ _ =>
              match GetInclusionProof left k m with
              | .error e => .error e
              | .ok ip =>
                .ok { leafIndex := m, treeSize := n, nonce := ip.nonce,
                      proof := ip.proof ++ [rh] }
          else
            match left with
            | .nil => .error .treeSizeMismatch
            | .mk lh _ _ _ _ =>
              match GetInclusionProof right (n - k) (m - k) with
              | .error e => .error e
              | .ok ip =>
                .ok { leafIndex := m, treeSize := n, nonce := ip.nonce,
                      proof := ip.proof ++ [lh] }

/-- Function `GetLeaf` from merkle.go. -/
def GetLeaf : Node → Nat → Nat → Except MError Node
  | root, n, m =>
    if m ≥ n then .error .indexOutOfRange
    else if n = 1 then .ok root
    else
      match root with
      | .nil => .error .nilPanic
      | .mk _ _ left right _ =>
        let k := flp2 n
        if m < k then
          match right with
          | .nil => .error .treeSizeMismatch
          | .mk _ _ _ _ _ => GetLeaf left k m
        else
          match left with
          | .nil => .error .treeSizeMismatch
          | .mk _ _ _ _ _ => GetLeaf right (n - k) (m - k)

/-- The inner loop of `CalcInclusionProof`:
`for fn&0x1 == 0 && fn != 0 { fn >>= 1; sn >>= 1 }`. -/
def shiftWhile (fn sn : Nat) : Nat × Nat :=
  if h : fn % 2 = 0 ∧ fn ≠ 0 then shiftWhile (fn / 2) (sn / 2) else (fn, sn)
termination_by fn
decreasing_by exact Nat.div_lt_self (Nat.pos_of_ne_zero h.2) (by omega)

/-- The `for _, p := range proof.Proof` loop of `CalcInclusionProof`,
including the final `sn != 0` check after the loop. -/
def calcLoop (H : List Nat → List Nat) :
    List (List Nat) → Nat → Nat → List Nat → Except MError (List Nat)
  | [], _, sn, r => if sn ≠ 0 then .error .proofSizeMismatch else .ok r
  | p :: rest, fn, sn, r =>
    if sn = 0 then .error .proofSizeMismatch
    else if fn % 2 = 1 ∨ fn = sn then
      let r2 := H (1 :: (p ++ r))
      let s := shiftWhile fn sn
      calcLoop H rest (s.1 / 2) (s.2 / 2) r2
    else
      calcLoop H rest (fn / 2) (sn / 2) (H (1 :: (r ++ p)))

/-- Function `CalcInclusionProof` from merkle.go.  The `io.Reader` is the pure byte
list `data`, so `HashLeaf` cannot fail. -/
def CalcInclusionProof (H : List Nat → List Nat) (proof : InclusionProof)
    (data : List Nat) : Except MError (List Nat) :=
  let leafHash := HashLeaf H data proof.nonce
  if proof.leafIndex ≥ proof.treeSize then .error .indexOutOfRange
  else calcLoop H proof.proof proof.leafIndex (proof.treeSize - 1) leafHash

/-- One-step unfolding of `CreateTreeF` in the recursive case. -/
lemma createTreeF_succ (H : List Nat → List Nat) (f : Nat) (a b : Node) (t : List Node) :
    CreateTreeF H (f + 1) (a :: b :: t) =
      Node.mk (H (1 :: ((CreateTreeF H f ((a :: b :: t).take (flp2 (a :: b :: t).length))).hash ++
                  (CreateTreeF H f ((a :: b :: t).drop (flp2 (a :: b :: t).length))).hash))) ""
        (CreateTreeF H f ((a :: b :: t).take (flp2 (a :: b :: t).length)))
        (CreateTreeF H f ((a :: b :: t).drop (flp2 (a :: b :: t).length))) [] := rfl

/-- Any fuel at least the list length computes the same tree (for lengths a
Go slice can have). -/
lemma createTreeF_fuel (H : List Nat → List Nat) :
    ∀ n : Nat, ∀ leaves : List Node, leaves.length = n →
      ∀ f, n ≤ f → n < 2 ^ 64 → CreateTreeF H f leaves = CreateTreeF H n leaves := by
  intro n
  induction n using Nat.strong_induction_on with
  | _ n ih =>
    intro leaves hlen f hf h64
    match leaves with
    | [] =>
      subst hlen
      cases f <;> rfl
    | [l] =>
      subst hlen
      cases f <;> rfl
    | a :: b :: t =>
      have hN : (a :: b :: t).length = t.length + 2 := by simp
      rw [hN] at hlen
      subst hlen
      obtain ⟨f0, rfl⟩ : ∃ f0, f = f0 + 1 := ⟨f - 1, by omega⟩
      rw [show t.length + 2 = (t.length + 1) + 1 from rfl, createTreeF_succ,
        createTreeF_succ]
      obtain ⟨hp1, hplt, _⟩ := flp2_bounds (t.length + 2) (by omega) h64
      rw [hN]
      have htake : ((a :: b :: t).take (flp2 (t.length + 2))).length
          = flp2 (t.length + 2) := by
        simp
        omega
      have hdrop : ((a :: b :: t).drop (flp2 (t.length + 2))).length
          = t.length + 2 - flp2 (t.length + 2) := by
        simp
      rw [ih (flp2 (t.length + 2)) (by omega) _ htake f0 (by omega) (by omega),
        ih (flp2 (t.length + 2)) (by omega) _ htake (t.length + 1) (by omega) (by omega),
        ih (t.length + 2 - flp2 (t.length + 2)) (by omega) _ hdrop f0 (by omega) (by omega),
        ih (t.length + 2 - flp2 (t.length + 2)) (by omega) _ hdrop (t.length + 1) (by omega)
          (by omega)]

/-- Unfolding: `CreateTree` on no leaves: the empty-hash node. -/
lemma createTree_nil (H : List Nat → List Nat) :
    CreateTree H [] = .mk (H []) "" .nil .nil [] := rfl

/-- Unfolding: `CreateTree` on one leaf promotes it. -/
lemma createTree_singleton (H : List Nat → List Nat) (l : Node) :
    CreateTree H [l] = l := rfl

/-- Unfolding: `CreateTree` on at least two leaves: split at `flp2` of the length,
recurse, and combine under domain tag `0x01`. -/
lemma createTree_split (H : List Nat → List Nat) (leaves : List Node)
    (h2 : 2 ≤ leaves.length) (h64 : leaves.length < 2 ^ 64) :
    CreateTree H leaves =
      .mk (H (1 :: ((CreateTree H (leaves.take (flp2 leaves.length))).hash ++
                    (CreateTree H (leaves.drop (flp2 leaves.length))).hash))) ""
        (CreateTree H (leaves.take (flp2 leaves.length)))
        (CreateTree H (leaves.drop (flp2 leaves.length))) [] := by
  match leaves with
  | [] => simp at h2
  | [l] => simp at h2
  | a :: b :: t =>
    have hN : (a :: b :: t).length = t.length + 2 := by simp
    rw [hN] at h64
    obtain ⟨hp1, hplt, _⟩ := flp2_bounds ((a :: b :: t).length)
      (by omega) (by omega)
    have htake : ((a :: b :: t).take (flp2 ((a :: b :: t).length))).length
        = flp2 ((a :: b :: t).length) := by
      rw [List.length_take]
      omega
    have hdrop : ((a :: b :: t).drop (flp2 ((a :: b :: t).length))).length
        = (a :: b :: t).length - flp2 ((a :: b :: t).length) := by
      rw [List.length_drop]
    conv_lhs =>
      rw [CreateTree, hN, show t.length + 2 = (t.length + 1) + 1 from rfl,
        createTreeF_succ]
    conv_rhs => rw [CreateTree, CreateTree, htake, hdrop]
    rw [createTreeF_fuel H (flp2 ((a :: b :: t).length)) _ htake (t.length + 1)
        (by omega) (by omega),
      createTreeF_fuel H ((a :: b :: t).length - flp2 ((a :: b :: t).length)) _ hdrop
        (t.length + 1) (by omega) (by omega)]

/-- Fact: `CreateTree` never returns the nil pointer when the leaves are real
nodes. -/
lemma createTree_ne_nil (H : List Nat → List Nat) (leaves : List Node)
    (hnn : ∀ l ∈ leaves, l ≠ Node.nil) (h64 : leaves.length < 2 ^ 64) :
    CreateTree H leaves ≠ Node.nil := by
  match leaves with
  | [] => simp [createTree_nil]
  | [l] =>
    rw [createTree_singleton]
    exact hnn l (by simp)
  | a :: b :: t =>
    rw [createTree_split H _ (by simp) h64]
    simp

/-- Unfolding: `GetInclusionProof` with an impossible index. -/
lemma getIP_oob (root : Node) (n m : Nat) (h : m ≥ n) :
    GetInclusionProof root n m = .error .indexOutOfRange := by
  rw [GetInclusionProof.eq_def]
  simp [h]

/-- Unfolding: `GetInclusionProof` dereferences the nil pointer once the index check
passes. -/
lemma getIP_nil (n m : Nat) (h : m < n) :
    GetInclusionProof .nil n m = .error .nilPanic := by
  rw [GetInclusionProof.eq_def]
  simp [Nat.not_le.mpr h]

/-- Unfolding: `GetInclusionProof` on a claimed single-leaf tree. -/
lemma getIP_one (hsh : List Nat) (nm : String) (l r : Node) (nn : List Nat)
    (m : Nat) (hm : m < 1) :
    GetInclusionProof (.mk hsh nm l r nn) 1 m =
      .ok { leafIndex := m, treeSize := 1, nonce := nn, proof := [] } := by
  rw [GetInclusionProof.eq_def]
  simp [Nat.not_le.mpr hm]

/-- Unfolding: `GetInclusionProof`, left descent, missing right child. -/
lemma getIP_left_nil (hsh : List Nat) (nm : String) (l : Node) (nn : List Nat)
    (n m : Nat) (hm : m < n) (hn : n ≠ 1) (hk : m < flp2 n) :
    GetInclusionProof (.mk hsh nm l .nil nn) n m = .error .treeSizeMismatch := by
  rw [GetInclusionProof.eq_def]
  simp [Nat.not_le.mpr hm, hn, hk]

/-- Unfolding: `GetInclusionProof`, left descent, right child present. -/
lemma getIP_left_step (hsh : List Nat) (nm : String) (l : Node) (rh : List Nat)
    (rnm : String) (rl rr : Node) (rnn nn : List Nat)
    (n m : Nat) (hm : m < n) (hn : n ≠ 1) (hk : m < flp2 n) :
    GetInclusionProof (.mk hsh nm l (.mk rh rnm rl rr rnn) nn) n m =
      match GetInclusionProof l (flp2 n) m with
      | .error e => .error e
      | .ok ip => .ok { leafIndex := m, treeSize := n, nonce := ip.nonce,
                        proof := ip.proof ++ [rh] } := by
  rw [GetInclusionProof.eq_def]
  simp [Nat.not_le.mpr hm, hn, hk]

/-- Unfolding: `GetInclusionProof`, right descent, missing left child. -/
lemma getIP_right_nil (hsh : List Nat) (nm : String) (r : Node) (nn : List Nat)
    (n m : Nat) (hm : m < n) (hn : n ≠ 1) (hk : ¬ m < flp2 n) :
    GetInclusionProof (.mk hsh nm .nil r nn) n m = .error .treeSizeMismatch := by
  rw [GetInclusionProof.eq_def]
  simp [Nat.not_le.mpr hm, hn, hk]

/-- Unfolding: `GetInclusionProof`, right descent, left child present. -/
lemma getIP_right_step (hsh : List Nat) (nm : String) (lh : List Nat)
    (lnm : String) (ll lr : Node) (lnn : List Nat) (r : Node) (nn : List Nat)
    (n m : Nat) (hm : m < n) (hn : n ≠ 1) (hk : ¬ m < flp2 n) :
    GetInclusionProof (.mk hsh nm (.mk lh lnm ll lr lnn) r nn) n m =
      match GetInclusionProof r (n - flp2 n) (m - flp2 n) with
      | .error e => .error e
      | .ok ip => .ok { leafIndex := m, treeSize := n, nonce := ip.nonce,
                        proof := ip.proof ++ [lh] } := by
  rw [GetInclusionProof.eq_def]
  simp [Nat.not_le.mpr hm, hn, hk]

/-- Unfolding: `GetLeaf` with an impossible index. -/
lemma getLeaf_oob (root : Node) (n m : Nat) (h : m ≥ n) :
    GetLeaf root n m = .error .indexOutOfRange := by
  rw [GetLeaf.eq_def]
  simp [h]

/-- Unfolding: `GetLeaf` on a claimed single-leaf tree returns the node unexamined. -/
lemma getLeaf_one (root : Node) (m : Nat) (hm : m < 1) :
    GetLeaf root 1 m = .ok root := by
  rw [GetLeaf.eq_def]
  simp [Nat.not_le.mpr hm]

/-- Unfolding: `GetLeaf` dereferences the nil pointer when it must descend. -/
lemma getLeaf_nil (n m : Nat) (h : m < n) (hn : n ≠ 1) :
    GetLeaf .nil n m = .error .nilPanic := by
  rw [GetLeaf.eq_def]
  simp [Nat.not_le.mpr h, hn]

/-- Unfolding: `GetLeaf`, left descent, missing right child. -/
lemma getLeaf_left_nil (hsh : List Nat) (nm : String) (l : Node) (nn : List Nat)
    (n m : Nat) (hm : m < n) (hn : n ≠ 1) (hk : m < flp2 n) :
    GetLeaf (.mk hsh nm l .nil nn) n m = .error .treeSizeMismatch := by
  rw [GetLeaf.eq_def]
  simp [Nat.not_le.mpr hm, hn, hk]

/-- Unfolding: `GetLeaf`, left descent, right child present. -/
lemma getLeaf_left_step (hsh : List Nat) (nm : String) (l : Node) (rh : List Nat)
    (rnm : String) (rl rr : Node) (rnn nn : List Nat)
    (n m : Nat) (hm : m < n) (hn : n ≠ 1) (hk : m < flp2 n) :
    GetLeaf (.mk hsh nm l (.mk rh rnm rl rr rnn) nn) n m
      = GetLeaf l (flp2 n) m := by
  rw [GetLeaf.eq_def]
  simp [Nat.not_le.mpr hm, hn, hk]

/-- Unfolding: `GetLeaf`, right descent, missing left child. -/
lemma getLeaf_right_nil (hsh : List Nat) (nm : String) (r : Node) (nn : List Nat)
    (n m : Nat) (hm : m < n) (hn : n ≠ 1) (hk : ¬ m < flp2 n) :
    GetLeaf (.mk hsh nm .nil r nn) n m = .error .treeSizeMismatch := by
  rw [GetLeaf.eq_def]
  simp [Nat.not_le.mpr hm, hn, hk]

/-- Unfolding: `GetLeaf`, right descent, left child present. -/
lemma getLeaf_right_step (hsh : List Nat) (nm : String) (lh : List Nat)
    (lnm : String) (ll lr : Node) (lnn : List Nat) (r : Node) (nn : List Nat)
    (n m : Nat) (hm : m < n) (hn : n ≠ 1) (hk : ¬ m < flp2 n) :
    GetLeaf (.mk hsh nm (.mk lh lnm ll lr lnn) r nn) n m
      = GetLeaf r (n - flp2 n) (m - flp2 n) := by
  rw [GetLeaf.eq_def]
  simp [Nat.not_le.mpr hm, hn, hk]

/-- The inner shift loop stops at once on an odd counter. -/
lemma shiftWhile_odd (fn sn : Nat) (h : fn % 2 = 1) : shiftWhile fn sn = (fn, sn) := by
  rw [shiftWhile]
  simp [h]

/-- The inner shift loop strips the trailing zeros of `fn` (here: both
counters equal, odd part `o`). -/
lemma shiftWhile_pow (o : Nat) (ho : o % 2 = 1) :
    ∀ e, shiftWhile (o * 2 ^ e) (o * 2 ^ e) = (o, o) := by
  intro e
  induction e with
  | zero => simpa using shiftWhile_odd o o ho
  | succ e ihe =>
    rw [shiftWhile]
    have hc1 : (o * 2 ^ (e + 1)) % 2 = 0 := by
      rw [pow_succ, ← mul_assoc]
      simp [Nat.mul_mod_left]
    have hc2 : o * 2 ^ (e + 1) ≠ 0 := by
      have : 0 < o := by omega
      positivity
    have hdiv : o * 2 ^ (e + 1) / 2 = o * 2 ^ e := by
      rw [pow_succ, ← mul_assoc]
      exact Nat.mul_div_cancel _ (by omega)
    simp only [hc1, hc2, ne_eq, not_false_eq_true, and_true, if_pos, hdiv]
    simpa [hdiv] using ihe

/-- Dividing a high-low decomposition by a power not exceeding the split. -/
lemma hi_lo_div (u B j m : Nat) (hj : j ≤ B) :
    (u * 2 ^ B + m) / 2 ^ j = u * 2 ^ (B - j) + m / 2 ^ j := by
  have h : u * 2 ^ B = 2 ^ j * (u * 2 ^ (B - j)) := by
    rw [mul_comm (2 ^ j), mul_assoc, ← pow_add]
    congr 2
    omega
  rw [h, Nat.mul_add_div (Nat.pos_pow_of_pos j (by omega))]

/-- The low part of a high-low decomposition is its remainder. -/
lemma hi_lo_mod (u B c m : Nat) (hc : c ≤ B) (hm : m < 2 ^ c) :
    (u * 2 ^ B + m) % 2 ^ c = m := by
  have h : u * 2 ^ B = (u * 2 ^ (B - c)) * 2 ^ c := by
    rw [mul_assoc, ← pow_add]
    congr 2
    omega
  rw [h, add_comm, Nat.add_mul_mod_self_right, Nat.mod_eq_of_lt hm]

/-- Parity of a high-low decomposition with a positive split. -/
lemma hi_lo_parity (u B m : Nat) (hB : 1 ≤ B) :
    (u * 2 ^ B + m) % 2 = m % 2 := by
  have h : u * 2 ^ B = (u * 2 ^ (B - 1)) * 2 := by
    rw [mul_assoc, ← pow_succ]
    congr 2
    omega
  rw [h, add_comm, Nat.add_mul_mod_self_right]

/-- Reading `getD` through `take`. -/
lemma getD_take (L : List Node) (k m : Nat) (hm : m < k) (hk : k ≤ L.length) :
    (L.take k).getD m Node.nil = L.getD m Node.nil := by
  have h1 : m < (L.take k).length := by
    rw [List.length_take]
    omega
  rw [List.getD_eq_getElem _ _ h1, List.getD_eq_getElem _ _ (show m < L.length by omega)]
  exact List.getElem_take ..

/-- Reading `getD` through `drop`. -/
lemma getD_drop (L : List Node) (k m : Nat) (h : k + m < L.length) :
    (L.drop k).getD m Node.nil = L.getD (k + m) Node.nil := by
  have h1 : m < (L.drop k).length := by
    rw [List.length_drop]
    omega
  rw [List.getD_eq_getElem _ _ h1, List.getD_eq_getElem _ _ h]
  exact List.getElem_drop ..

/-- Unfolding: `calcLoop` on the empty path. -/
lemma calcLoop_nil (H : List Nat → List Nat) (fn sn : Nat) (r : List Nat) :
    calcLoop H [] fn sn r
      = if sn ≠ 0 then .error .proofSizeMismatch else .ok r := rfl

/-- One `calcLoop` step, sibling combined on the left. -/
lemma calcLoop_cons_left (H : List Nat → List Nat) (p : List Nat)
    (rest : List (List Nat)) (fn sn : Nat) (r : List Nat)
    (hsn : ¬ sn = 0) (hc : fn % 2 = 1 ∨ fn = sn) :
    calcLoop H (p :: rest) fn sn r =
      calcLoop H rest ((shiftWhile fn sn).1 / 2) ((shiftWhile fn sn).2 / 2)
        (H (1 :: (p ++ r))) := by
  simp only [calcLoop]
  rw [if_neg hsn, if_pos hc]

/-- One `calcLoop` step, sibling combined on the right. -/
lemma calcLoop_cons_right (H : List Nat → List Nat) (p : List Nat)
    (rest : List (List Nat)) (fn sn : Nat) (r : List Nat)
    (hsn : ¬ sn = 0) (hc : ¬ (fn % 2 = 1 ∨ fn = sn)) :
    calcLoop H (p :: rest) fn sn r =
      calcLoop H rest (fn / 2) (sn / 2) (H (1 :: (r ++ p))) := by
  simp only [calcLoop]
  rw [if_neg hsn, if_neg hc]

/-- The size of `2 ^ (c + 1) - 1` is `c + 1`. -/
lemma size_two_pow_sub_one (c : Nat) : Nat.size (2 ^ (c + 1) - 1) = c + 1 := by
  have hpow : (2:Nat) ^ (c + 1) = 2 * 2 ^ c := by
    rw [pow_succ]
    ring
  have hcpos : 0 < (2:Nat) ^ c := Nat.pos_pow_of_pos c (by omega)
  have hle : Nat.size (2 ^ (c + 1) - 1) ≤ c + 1 := Nat.size_le.mpr (by omega)
  have hgt : c < Nat.size (2 ^ (c + 1) - 1) := Nat.lt_size.mpr (by omega)
  omega

/-- Value of `flp2` at an exact power of two is its half. -/
lemma flp2_two_pow (c : Nat) (hc : 2 ^ (c + 1) < 2 ^ 64) :
    flp2 (2 ^ (c + 1)) = 2 ^ c := by
  rw [flp2_eq_pow _ (Nat.one_lt_two_pow_iff.mpr (by omega)) hc, size_two_pow_sub_one]
  simp

/-- Perfect left subtrees: proof generation succeeds, and the verifier's
fold consumes the generated path one shift per element regardless of the
high bits of `fn`, `sn`, provided `fn` stays strictly below `sn`
level-by-level (which is how such subtrees are reached from the left). -/
lemma perfect_fold (H : List Nat → List Nat) :
    ∀ c : Nat, ∀ leaves : List Node, leaves.length = 2 ^ c → 2 ^ c < 2 ^ 64 →
      (∀ l ∈ leaves, l ≠ Node.nil) → ∀ m, m < 2 ^ c →
      ∃ path,
        GetInclusionProof (CreateTree H leaves) (2 ^ c) m =
          .ok { leafIndex := m, treeSize := 2 ^ c,
                nonce := (leaves.getD m Node.nil).nonce, proof := path } ∧
        ∀ fn sn : Nat, fn % 2 ^ c = m →
          (∀ j, j < c → fn / 2 ^ j < sn / 2 ^ j) →
          ∀ rest, calcLoop H (path ++ rest) fn sn ((leaves.getD m Node.nil).hash) =
            calcLoop H rest (fn / 2 ^ c) (sn / 2 ^ c) (CreateTree H leaves).hash := by
  intro c
  induction c with
  | zero =>
    intro leaves hlen h64 hnn m hm
    have hm0 : m = 0 := by simpa using hm
    subst hm0
    obtain ⟨l, rfl⟩ := List.length_eq_one.mp (by simpa using hlen)
    have hl : l ≠ Node.nil := hnn l (by simp)
    refine ⟨[], ?_, ?_⟩
    · rw [createTree_singleton]
      match l, hl with
      | .mk lh lnm ll lr lnn, _ =>
        simp only [pow_zero]
        rw [getIP_one _ _ _ _ _ _ (by omega)]
        simp [Node.nonce]
    · intro fn sn hmod hlt rest
      rw [createTree_singleton]
      simp
  | succ c ihc =>
    intro leaves hlen h64 hnn m hm
    have hpow : (2:Nat) ^ (c + 1) = 2 * 2 ^ c := by
      rw [pow_succ]
      ring
    have hcpos : 0 < (2:Nat) ^ c := Nat.pos_pow_of_pos c (by omega)
    have hne1 : (2:Nat) ^ (c + 1) ≠ 1 := by omega
    have h2n : 2 ≤ leaves.length := by omega
    have h64n : leaves.length < 2 ^ 64 := by omega
    have hflp2p : flp2 (2 ^ (c + 1)) = 2 ^ c := flp2_two_pow c h64
    have hflp : flp2 leaves.length = 2 ^ c := by
      rw [hlen]
      exact hflp2p
    have hsplit := createTree_split H leaves h2n h64n
    rw [hflp] at hsplit
    have hLT : (leaves.take (2 ^ c)).length = 2 ^ c := by
      rw [List.length_take]
      omega
    have hLD : (leaves.drop (2 ^ c)).length = 2 ^ c := by
      rw [List.length_drop]
      omega
    have hnnT : ∀ l ∈ leaves.take (2 ^ c), l ≠ Node.nil :=
      fun l hl => hnn l ((List.take_sublist _ _).subset hl)
    have hnnD : ∀ l ∈ leaves.drop (2 ^ c), l ≠ Node.nil :=
      fun l hl => hnn l ((List.drop_sublist _ _).subset hl)
    have hLne : CreateTree H (leaves.take (2 ^ c)) ≠ Node.nil :=
      createTree_ne_nil H _ hnnT (by omega)
    have hRne : CreateTree H (leaves.drop (2 ^ c)) ≠ Node.nil :=
      createTree_ne_nil H _ hnnD (by omega)
    have hdd : ∀ x : Nat, x / 2 ^ c / 2 = x / 2 ^ (c + 1) := fun x => by
      rw [Nat.div_div_eq_div_mul, ← pow_succ]
    by_cases hmk : m < 2 ^ c
    · -- target leaf in the left (perfect) half
      obtain ⟨pathL, hgenL, hfoldL⟩ := ihc (leaves.take (2 ^ c)) hLT (by omega) hnnT m hmk
      have hgt : (leaves.take (2 ^ c)).getD m Node.nil = leaves.getD m Node.nil :=
        getD_take leaves (2 ^ c) m hmk (by omega)
      rcases hR : CreateTree H (leaves.drop (2 ^ c)) with _ | ⟨rh, rnm, rl, rr, rnn⟩
      · exact absurd hR hRne
      refine ⟨pathL ++ [rh], ?_, ?_⟩
      · rw [hsplit, hR,
          getIP_left_step _ _ _ _ _ _ _ _ _ _ _ hm hne1 (by rw [hflp2p]; exact hmk),
          hflp2p, hgenL, hgt]
      · intro fn sn hmod hlt rest
        have hmodc : fn % 2 ^ c = m := by
          rw [← Nat.mod_mod_of_dvd fn (pow_dvd_pow 2 (show c ≤ c + 1 by omega)), hmod,
            Nat.mod_eq_of_lt hmk]
        have hltc : ∀ j, j < c → fn / 2 ^ j < sn / 2 ^ j := fun j hj => hlt j (by omega)
        rw [List.append_assoc, ← hgt, hfoldL fn sn hmodc hltc ([rh] ++ rest),
          List.singleton_append]
        have hq : fn = fn / 2 ^ (c + 1) * 2 ^ (c + 1) + m := by
          have h1 := Nat.div_add_mod fn (2 ^ (c + 1))
          rw [hmod, Nat.mul_comm] at h1
          exact h1.symm
        have hdivc : fn / 2 ^ c = fn / 2 ^ (c + 1) * 2 := by
          have h := hi_lo_div (fn / 2 ^ (c + 1)) (c + 1) c m (by omega)
          rw [← hq] at h
          rw [h, Nat.div_eq_of_lt hmk, show c + 1 - c = 1 by omega, pow_one, add_zero]
        have hfneven : (fn / 2 ^ c) % 2 = 0 := by
          rw [hdivc]
          exact Nat.mul_mod_left _ 2
        have hfnlt : fn / 2 ^ c < sn / 2 ^ c := hlt c (by omega)
        rw [calcLoop_cons_right H rh rest (fn / 2 ^ c) (sn / 2 ^ c) _
          (by omega) (by omega)]
        have hrhash : (CreateTree H (leaves.drop (2 ^ c))).hash = rh := by
          rw [hR]
          rfl
        rw [hdd fn, hdd sn, hsplit, Node.hash_mk, hrhash]
    · -- target leaf in the right (perfect) half
      push_neg at hmk
      obtain ⟨pathR, hgenR, hfoldR⟩ :=
        ihc (leaves.drop (2 ^ c)) hLD (by omega) hnnD (m - 2 ^ c) (by omega)
      have hgd : (leaves.drop (2 ^ c)).getD (m - 2 ^ c) Node.nil
          = leaves.getD m Node.nil := by
        rw [getD_drop leaves (2 ^ c) (m - 2 ^ c) (by omega),
          show 2 ^ c + (m - 2 ^ c) = m by omega]
      rcases hL : CreateTree H (leaves.take (2 ^ c)) with _ | ⟨lh, lnm, ll, lr, lnn⟩
      · exact absurd hL hLne
      refine ⟨pathR ++ [lh], ?_, ?_⟩
      · rw [hsplit, hL,
          getIP_right_step _ _ _ _ _ _ _ _ _ _ _ hm hne1 (by rw [hflp2p]; omega),
          hflp2p, show (2:Nat) ^ (c + 1) - 2 ^ c = 2 ^ c by omega, hgenR, hgd]
      · intro fn sn hmod hlt rest
        have hmodc : fn % 2 ^ c = m - 2 ^ c := by
          rw [← Nat.mod_mod_of_dvd fn (pow_dvd_pow 2 (show c ≤ c + 1 by omega)), hmod,
            Nat.mod_eq_sub_mod hmk, Nat.mod_eq_of_lt (by omega)]
        have hltc : ∀ j, j < c → fn / 2 ^ j < sn / 2 ^ j := fun j hj => hlt j (by omega)
        rw [List.append_assoc, ← hgd, hfoldR fn sn hmodc hltc ([lh] ++ rest),
          List.singleton_append]
        have hq : fn = fn / 2 ^ (c + 1) * 2 ^ (c + 1) + m := by
          have h1 := Nat.div_add_mod fn (2 ^ (c + 1))
          rw [hmod, Nat.mul_comm] at h1
          exact h1.symm
        have hmdivc : m / 2 ^ c = 1 := Nat.div_eq_of_lt_le (by omega) (by omega)
        have hdivc : fn / 2 ^ c = fn / 2 ^ (c + 1) * 2 + 1 := by
          have h := hi_lo_div (fn / 2 ^ (c + 1)) (c + 1) c m (by omega)
          rw [← hq] at h
          rw [h, hmdivc, show c + 1 - c = 1 by omega, pow_one]
        have hfnodd : (fn / 2 ^ c) % 2 = 1 := by omega
        have hfnlt : fn / 2 ^ c < sn / 2 ^ c := hlt c (by omega)
        rw [calcLoop_cons_left H lh rest (fn / 2 ^ c) (sn / 2 ^ c) _
          (by omega) (Or.inl hfnodd)]
        rw [shiftWhile_odd _ _ hfnodd]
        have hlhash : (CreateTree H (leaves.take (2 ^ c))).hash = lh := by
          rw [hL]
          rfl
        rw [hdd fn, hdd sn, hsplit, Node.hash_mk, hlhash]

lemma Node.nonce_mk (h : List Nat) (nm : String) (l r : Node) (nn : List Nat) :
    (Node.mk h nm l r nn).nonce = nn := rfl

/-- Trees built by `CreateTree`: proof generation succeeds carrying the
leaf's nonce, and the verifier's fold reduces the generated path to the root
hash, uniformly in high bits `u` shared by `fn` and `sn` (they are produced
by enclosing right-descents). -/
lemma built_tree_fold (H : List Nat → List Nat) :
    ∀ n : Nat, ∀ leaves : List Node, leaves.length = n → 1 ≤ n → n < 2 ^ 64 →
      (∀ l ∈ leaves, l ≠ Node.nil) → ∀ m, m < n →
      ∃ path,
        GetInclusionProof (CreateTree H leaves) n m =
          .ok { leafIndex := m, treeSize := n,
                nonce := (leaves.getD m Node.nil).nonce, proof := path } ∧
        ∀ u B rest, n ≤ 2 ^ B →
          calcLoop H (path ++ rest) (u * 2 ^ B + m) (u * 2 ^ B + (n - 1))
              ((leaves.getD m Node.nil).hash) =
            calcLoop H rest (u * 2 ^ (B - Nat.size (n - 1)))
              (u * 2 ^ (B - Nat.size (n - 1))) (CreateTree H leaves).hash := by
  intro n
  induction n using Nat.strong_induction_on with
  | _ n ih =>
    intro leaves hlen h1 h64 hnn m hm
    rcases Nat.lt_or_ge n 2 with hn1 | hn2
    · -- single leaf
      have hn : n = 1 := by omega
      subst hn
      have hm0 : m = 0 := by omega
      subst hm0
      obtain ⟨l, rfl⟩ := List.length_eq_one.mp hlen
      have hl : l ≠ Node.nil := hnn l (by simp)
      match l, hl with
      | .mk lh lnm ll lr lnn, _ =>
        refine ⟨[], ?_, ?_⟩
        · rw [createTree_singleton, getIP_one _ _ _ _ _ _ (by omega)]
          simp [Node.nonce_mk]
        · intro u B rest hB
          rw [createTree_singleton]
          simp [Nat.size_zero]
    · -- at least two leaves: split at flp2 n = 2 ^ c
      obtain ⟨c, hsize⟩ : ∃ c, Nat.size (n - 1) = c + 1 :=
        ⟨Nat.size (n - 1) - 1, by have := Nat.size_pos.mpr (show 0 < n - 1 by omega); omega⟩
      have hflp : flp2 n = 2 ^ c := by
        rw [flp2_eq_pow n hn2 h64, hsize]
        simp
      have hlo : 2 ^ c ≤ n - 1 := by
        have h := (size_sandwich (n - 1) (by omega)).1
        rw [hsize] at h
        simpa using h
      have hhi : n - 1 < 2 ^ (c + 1) := by
        have h := (size_sandwich (n - 1) (by omega)).2
        rwa [hsize] at h
      have hpow : (2:Nat) ^ (c + 1) = 2 * 2 ^ c := by
        rw [pow_succ]
        ring
      have hcpos : 0 < (2:Nat) ^ c := Nat.pos_pow_of_pos c (by omega)
      have hne1 : n ≠ 1 := by omega
      have h2n : 2 ≤ leaves.length := by omega
      have h64n : leaves.length < 2 ^ 64 := by omega
      have h2c64 : (2:Nat) ^ c < 2 ^ 64 := by omega
      have hflpL : flp2 leaves.length = 2 ^ c := by
        rw [hlen]
        exact hflp
      have hsplit := createTree_split H leaves h2n h64n
      rw [hflpL] at hsplit
      have hLT : (leaves.take (2 ^ c)).length = 2 ^ c := by
        rw [List.length_take]
        omega
      have hLD : (leaves.drop (2 ^ c)).length = n - 2 ^ c := by
        rw [List.length_drop]
        omega
      have hnnT : ∀ l ∈ leaves.take (2 ^ c), l ≠ Node.nil :=
        fun l hl => hnn l ((List.take_sublist _ _).subset hl)
      have hnnD : ∀ l ∈ leaves.drop (2 ^ c), l ≠ Node.nil :=
        fun l hl => hnn l ((List.drop_sublist _ _).subset hl)
      have hLne : CreateTree H (leaves.take (2 ^ c)) ≠ Node.nil :=
        createTree_ne_nil H _ hnnT (by omega)
      have hRne : CreateTree H (leaves.drop (2 ^ c)) ≠ Node.nil :=
        createTree_ne_nil H _ hnnD (by omega)
      by_cases hmk : m < 2 ^ c
      · -- descend into the perfect left half
        obtain ⟨pathL, hgenL, hfoldL⟩ :=
          perfect_fold H c (leaves.take (2 ^ c)) hLT h2c64 hnnT m hmk
        have hgt : (leaves.take (2 ^ c)).getD m Node.nil = leaves.getD m Node.nil :=
          getD_take leaves (2 ^ c) m hmk (by omega)
        rcases hR : CreateTree H (leaves.drop (2 ^ c)) with _ | ⟨rh, rnm, rl, rr, rnn⟩
        · exact absurd hR hRne
        refine ⟨pathL ++ [rh], ?_, ?_⟩
        · rw [hsplit, hR,
            getIP_left_step _ _ _ _ _ _ _ _ _ _ _ hm hne1 (by rw [hflp]; exact hmk),
            hflp, hgenL, hgt]
        · intro u B rest hB
          have hcB : c < B := by
            by_contra hcon
            have : (2:Nat) ^ B ≤ 2 ^ c := Nat.pow_le_pow_right (by omega) (by omega)
            omega
          have hmod : (u * 2 ^ B + m) % 2 ^ c = m := hi_lo_mod u B c m (by omega) hmk
          have hlt : ∀ j, j < c →
              (u * 2 ^ B + m) / 2 ^ j < (u * 2 ^ B + (n - 1)) / 2 ^ j := by
            intro j hj
            rw [hi_lo_div u B j m (by omega), hi_lo_div u B j (n - 1) (by omega)]
            have hjpos : 0 < (2:Nat) ^ j := Nat.pos_pow_of_pos j (by omega)
            have hcj : (2:Nat) ^ (c - j) * 2 ^ j = 2 ^ c := by
              rw [← pow_add]
              congr 1
              omega
            have h1 : m / 2 ^ j < 2 ^ (c - j) := by
              rw [Nat.div_lt_iff_lt_mul hjpos, hcj]
              exact hmk
            have h2 : 2 ^ (c - j) ≤ (n - 1) / 2 ^ j := by
              rw [Nat.le_div_iff_mul_le hjpos, hcj]
              exact hlo
            omega
          rw [List.append_assoc, ← hgt,
            hfoldL (u * 2 ^ B + m) (u * 2 ^ B + (n - 1)) hmod hlt ([rh] ++ rest),
            List.singleton_append]
          have hfn : (u * 2 ^ B + m) / 2 ^ c = u * 2 ^ (B - c) := by
            rw [hi_lo_div u B c m (by omega), Nat.div_eq_of_lt hmk, add_zero]
          have hdivn1 : (n - 1) / 2 ^ c = 1 := Nat.div_eq_of_lt_le (by omega) (by omega)
          have hsn : (u * 2 ^ B + (n - 1)) / 2 ^ c = u * 2 ^ (B - c) + 1 := by
            rw [hi_lo_div u B c (n - 1) (by omega), hdivn1]
          have hpar : (u * 2 ^ (B - c)) % 2 = 0 := by
            have h := hi_lo_parity u (B - c) 0 (by omega)
            simpa using h
          rw [hfn, hsn,
            calcLoop_cons_right H rh rest _ _ _ (by omega) (by omega)]
          have hEx : u * 2 ^ (B - c) = u * 2 ^ (B - c - 1) * 2 := by
            rw [mul_assoc, ← pow_succ]
            congr 2
            omega
          have hd1 : u * 2 ^ (B - c) / 2 = u * 2 ^ (B - c - 1) := by
            rw [hEx]
            exact Nat.mul_div_cancel _ (by omega)
          have hd2 : (u * 2 ^ (B - c) + 1) / 2 = u * 2 ^ (B - c - 1) := by
            rw [hEx]
            omega
          have hrhash : (CreateTree H (leaves.drop (2 ^ c))).hash = rh := by
            rw [hR]
            rfl
          rw [hd1, hd2, hsize, show B - (c + 1) = B - c - 1 by omega,
            hsplit, Node.hash_mk, hrhash]
      · -- descend into the right half, by strong induction
        push_neg at hmk
        obtain ⟨pathR, hgenR, hfoldR⟩ :=
          ih (n - 2 ^ c) (by omega) (leaves.drop (2 ^ c)) hLD (by omega) (by omega)
            hnnD (m - 2 ^ c) (by omega)
        have hgd : (leaves.drop (2 ^ c)).getD (m - 2 ^ c) Node.nil
            = leaves.getD m Node.nil := by
          rw [getD_drop leaves (2 ^ c) (m - 2 ^ c) (by omega),
            show 2 ^ c + (m - 2 ^ c) = m by omega]
        rcases hL : CreateTree H (leaves.take (2 ^ c)) with _ | ⟨lh, lnm, ll, lr, lnn⟩
        · exact absurd hL hLne
        refine ⟨pathR ++ [lh], ?_, ?_⟩
        · rw [hsplit, hL,
            getIP_right_step _ _ _ _ _ _ _ _ _ _ _ hm hne1 (by rw [hflp]; omega),
            hflp, hgenR, hgd]
        · intro u B rest hB
          have hcB : c < B := by
            by_contra hcon
            have : (2:Nat) ^ B ≤ 2 ^ c := Nat.pow_le_pow_right (by omega) (by omega)
            omega
          have hu : (u * 2 ^ (B - c) + 1) * 2 ^ c = u * 2 ^ B + 2 ^ c := by
            rw [add_mul, one_mul, mul_assoc, ← pow_add,
              show B - c + c = B by omega]
          have hfneq : u * 2 ^ B + m = (u * 2 ^ (B - c) + 1) * 2 ^ c + (m - 2 ^ c) := by
            rw [hu]
            omega
          have hsneq : u * 2 ^ B + (n - 1)
              = (u * 2 ^ (B - c) + 1) * 2 ^ c + (n - 2 ^ c - 1) := by
            rw [hu]
            omega
          rw [List.append_assoc, ← hgd, hfneq, hsneq,
            hfoldR (u * 2 ^ (B - c) + 1) c ([lh] ++ rest) (by omega),
            List.singleton_append]
          have hT : Nat.size (n - 2 ^ c - 1) ≤ c := Nat.size_le.mpr (by omega)
          have hvpos : 0 < (u * 2 ^ (B - c) + 1) * 2 ^ (c - Nat.size (n - 2 ^ c - 1)) := by
            have hp : 0 < (2:Nat) ^ (c - Nat.size (n - 2 ^ c - 1)) :=
              Nat.pos_pow_of_pos _ (by omega)
            exact Nat.mul_pos (by omega) hp
          rw [calcLoop_cons_left H lh rest _ _ _ (by omega) (Or.inr rfl)]
          have hodd : (u * 2 ^ (B - c) + 1) % 2 = 1 := by
            have h := hi_lo_parity u (B - c) 1 (by omega)
            simpa using h
          rw [shiftWhile_pow (u * 2 ^ (B - c) + 1) hodd (c - Nat.size (n - 2 ^ c - 1))]
          have hEx : u * 2 ^ (B - c) = u * 2 ^ (B - c - 1) * 2 := by
            rw [mul_assoc, ← pow_succ]
            congr 2
            omega
          have hd : (u * 2 ^ (B - c) + 1) / 2 = u * 2 ^ (B - c - 1) := by
            rw [hEx]
            omega
          have hlhash : (CreateTree H (leaves.take (2 ^ c))).hash = lh := by
            rw [hL]
            rfl
          rw [hsize, show B - (c + 1) = B - c - 1 by omega]
          show calcLoop H rest ((u * 2 ^ (B - c) + 1) / 2) ((u * 2 ^ (B - c) + 1) / 2) _ = _
          rw [hd, hsplit, Node.hash_mk, hlhash]

/-- Correctness: `GetLeaf` on a built tree returns exactly the requested leaf. -/
lemma getLeaf_built (H : List Nat → List Nat) :
    ∀ n : Nat, ∀ leaves : List Node, leaves.length = n → 1 ≤ n → n < 2 ^ 64 →
      (∀ l ∈ leaves, l ≠ Node.nil) → ∀ m, m < n →
      GetLeaf (CreateTree H leaves) n m = .ok (leaves.getD m Node.nil) := by
  intro n
  induction n using Nat.strong_induction_on with
  | _ n ih =>
    intro leaves hlen h1 h64 hnn m hm
    rcases Nat.lt_or_ge n 2 with hn1 | hn2
    · have hn : n = 1 := by omega
      subst hn
      have hm0 : m = 0 := by omega
      subst hm0
      obtain ⟨l, rfl⟩ := List.length_eq_one.mp hlen
      rw [createTree_singleton, getLeaf_one _ _ (by omega)]
      rfl
    · obtain ⟨c, hsize⟩ : ∃ c, Nat.size (n - 1) = c + 1 :=
        ⟨Nat.size (n - 1) - 1, by have := Nat.size_pos.mpr (show 0 < n - 1 by omega); omega⟩
      have hflp : flp2 n = 2 ^ c := by
        rw [flp2_eq_pow n hn2 h64, hsize]
        simp
      have hlo : 2 ^ c ≤ n - 1 := by
        have h := (size_sandwich (n - 1) (by omega)).1
        rw [hsize] at h
        simpa using h
      have hhi : n - 1 < 2 ^ (c + 1) := by
        have h := (size_sandwich (n - 1) (by omega)).2
        rwa [hsize] at h
      have hpow : (2:Nat) ^ (c + 1) = 2 * 2 ^ c := by
        rw [pow_succ]
        ring
      have hcpos : 0 < (2:Nat) ^ c := Nat.pos_pow_of_pos c (by omega)
      have hne1 : n ≠ 1 := by omega
      have hflpL : flp2 leaves.length = 2 ^ c := by
        rw [hlen]
        exact hflp
      have hsplit := createTree_split H leaves (by omega) (by omega)
      rw [hflpL] at hsplit
      have hLT : (leaves.take (2 ^ c)).length = 2 ^ c := by
        rw [List.length_take]
        omega
      have hLD : (leaves.drop (2 ^ c)).length = n - 2 ^ c := by
        rw [List.length_drop]
        omega
      have hnnT : ∀ l ∈ leaves.take (2 ^ c), l ≠ Node.nil :=
        fun l hl => hnn l ((List.take_sublist _ _).subset hl)
      have hnnD : ∀ l ∈ leaves.drop (2 ^ c), l ≠ Node.nil :=
        fun l hl => hnn l ((List.drop_sublist _ _).subset hl)
      have hLne : CreateTree H (leaves.take (2 ^ c)) ≠ Node.nil :=
        createTree_ne_nil H _ hnnT (by rw [hLT]; omega)
      have hRne : CreateTree H (leaves.drop (2 ^ c)) ≠ Node.nil :=
        createTree_ne_nil H _ hnnD (by rw [hLD]; omega)
      by_cases hmk : m < 2 ^ c
      · rcases hR : CreateTree H (leaves.drop (2 ^ c)) with _ | ⟨rh, rnm, rl, rr, rnn⟩
        · exact absurd hR hRne
        rw [hsplit, hR,
          getLeaf_left_step _ _ _ _ _ _ _ _ _ _ _ hm hne1 (by rw [hflp]; exact hmk),
          hflp,
          ih (2 ^ c) (by omega) (leaves.take (2 ^ c)) hLT (by omega) (by omega) hnnT m hmk,
          getD_take leaves (2 ^ c) m hmk (by omega)]
      · push_neg at hmk
        rcases hL : CreateTree H (leaves.take (2 ^ c)) with _ | ⟨lh, lnm, ll, lr, lnn⟩
        · exact absurd hL hLne
        rw [hsplit, hL,
          getLeaf_right_step _ _ _ _ _ _ _ _ _ _ _ hm hne1 (by rw [hflp]; omega),
          hflp,
          ih (n - 2 ^ c) (by omega) (leaves.drop (2 ^ c)) hLD (by omega) (by omega) hnnD
            (m - 2 ^ c) (by omega),
          getD_drop leaves (2 ^ c) (m - 2 ^ c) (by omega),
          show 2 ^ c + (m - 2 ^ c) = m by omega]

/-- Tree shape invariant: a present node has either no children or two
children, recursively.  The nil pointer is not well-formed. -/
def wellFormed : Node → Bool
  | .nil => false
  | .mk _ _ .nil .nil _ => true
  | .mk _ _ .nil (.mk _ _ _ _ _) _ => false
  | .mk _ _ (.mk _ _ _ _ _) .nil _ => false
  | .mk _ _ (.mk lh lnm ll lr lnn) (.mk rh rnm rl rr rnn) _ =>
      wellFormed (.mk lh lnm ll lr lnn) && wellFormed (.mk rh rnm rl rr rnn)

/-- Leaf shape: a present node without children. -/
def Node.isLeaf : Node → Bool
  | .nil => false
  | .mk _ _ l r _ => decide (l = .nil) && decide (r = .nil)

lemma isLeaf_ne_nil (l : Node) (h : l.isLeaf = true) : l ≠ Node.nil := by
  intro hcon
  subst hcon
  exact Bool.noConfusion h

lemma wellFormed_of_isLeaf (l : Node) (h : l.isLeaf = true) : wellFormed l = true := by
  match l with
  | .nil => exact Bool.noConfusion h
  | .mk h2 nm cl cr nn =>
    simp only [Node.isLeaf, Bool.and_eq_true, decide_eq_true_eq] at h
    obtain ⟨rfl, rfl⟩ := h
    rfl

/-- Shape: `CreateTree` on leaf nodes produces a well-formed tree. -/
lemma createTree_wf (H : List Nat → List Nat) :
    ∀ n : Nat, ∀ leaves : List Node, leaves.length = n → n < 2 ^ 64 →
      (∀ l ∈ leaves, l.isLeaf = true) → wellFormed (CreateTree H leaves) = true := by
  intro n
  induction n using Nat.strong_induction_on with
  | _ n ih =>
    intro leaves hlen h64 hleaf
    match leaves with
    | [] => rfl
    | [l] =>
      rw [createTree_singleton]
      exact wellFormed_of_isLeaf l (hleaf l (by simp))
    | a :: b :: t =>
      have hN : (a :: b :: t).length = t.length + 2 := by simp
      rw [hN] at hlen
      subst hlen
      obtain ⟨hp1, hplt, _⟩ := flp2_bounds (t.length + 2) (by omega) h64
      have hsplit := createTree_split H (a :: b :: t) (by simp) (by rw [hN]; omega)
      rw [hN] at hsplit
      have hLT : ((a :: b :: t).take (flp2 (t.length + 2))).length = flp2 (t.length + 2) := by
        rw [List.length_take, hN]
        omega
      have hLD : ((a :: b :: t).drop (flp2 (t.length + 2))).length
          = t.length + 2 - flp2 (t.length + 2) := by
        rw [List.length_drop, hN]
      have hleafT : ∀ l ∈ (a :: b :: t).take (flp2 (t.length + 2)), l.isLeaf = true :=
        fun l hl => hleaf l ((List.take_sublist _ _).subset hl)
      have hleafD : ∀ l ∈ (a :: b :: t).drop (flp2 (t.length + 2)), l.isLeaf = true :=
        fun l hl => hleaf l ((List.drop_sublist _ _).subset hl)
      have hwL := ih (flp2 (t.length + 2)) (by omega) _ hLT (by omega) hleafT
      have hwR := ih (t.length + 2 - flp2 (t.length + 2)) (by omega) _ hLD (by omega) hleafD
      have hnnT : ∀ l ∈ (a :: b :: t).take (flp2 (t.length + 2)), l ≠ Node.nil :=
        fun l hl => isLeaf_ne_nil l (hleafT l hl)
      have hnnD : ∀ l ∈ (a :: b :: t).drop (flp2 (t.length + 2)), l ≠ Node.nil :=
        fun l hl => isLeaf_ne_nil l (hleafD l hl)
      have hLne := createTree_ne_nil H _ hnnT (by rw [hLT]; omega)
      have hRne := createTree_ne_nil H _ hnnD (by rw [hLD]; omega)
      rw [hsplit]
      rcases hL : CreateTree H ((a :: b :: t).take (flp2 (t.length + 2))) with
        _ | ⟨lh, lnm, ll, lr, lnn⟩
      · exact absurd hL hLne
      rcases hR : CreateTree H ((a :: b :: t).drop (flp2 (t.length + 2))) with
        _ | ⟨rh, rnm, rl, rr, rnn⟩
      · exact absurd hR hRne
      rw [hL] at hwL
      rw [hR] at hwR
      show (wellFormed (.mk lh lnm ll lr lnn) && wellFormed (.mk rh rnm rl rr rnn)) = true
      rw [hwL, hwR]
      rfl

/-- Safety: `GetInclusionProof` on a well-formed tree never dereferences nil. -/
lemma getIP_no_panic : ∀ root : Node, wellFormed root = true → ∀ n m : Nat,
    GetInclusionProof root n m ≠ .error .nilPanic := by
  intro root
  induction root with
  | nil => intro hwf; exact Bool.noConfusion hwf
  | mk h nm l r nn ihl ihr =>
    intro hwf n m
    by_cases hmn : m ≥ n
    · rw [getIP_oob _ _ _ hmn]
      simp
    · push_neg at hmn
      by_cases hn1 : n = 1
      · subst hn1
        rw [getIP_one _ _ _ _ _ _ hmn]
        simp
      · rcases l with _ | ⟨lh, lnm, ll, lr2, lnn⟩ <;>
          rcases r with _ | ⟨rh, rnm, rl, rr2, rnn⟩
        · -- leaf node: both descents hit the mismatch guard
          by_cases hk : m < flp2 n
          · rw [getIP_left_nil _ _ _ _ _ _ hmn hn1 hk]
            simp
          · rw [getIP_right_nil _ _ _ _ _ _ hmn hn1 hk]
            simp
        · exact Bool.noConfusion hwf
        · exact Bool.noConfusion hwf
        · have hwf2 := hwf
          rw [show wellFormed (.mk h nm (.mk lh lnm ll lr2 lnn) (.mk rh rnm rl rr2 rnn) nn)
              = (wellFormed (.mk lh lnm ll lr2 lnn) && wellFormed (.mk rh rnm rl rr2 rnn))
            from rfl, Bool.and_eq_true] at hwf2
          obtain ⟨hwl, hwr⟩ := hwf2
          by_cases hk : m < flp2 n
          · rw [getIP_left_step _ _ _ _ _ _ _ _ _ _ _ hmn hn1 hk]
            cases hrec : GetInclusionProof (.mk lh lnm ll lr2 lnn) (flp2 n) m with
            | error e =>
              have hne := ihl hwl (flp2 n) m
              rw [hrec] at hne
              exact hne
            | ok ip => simp
          · rw [getIP_right_step _ _ _ _ _ _ _ _ _ _ _ hmn hn1 hk]
            cases hrec : GetInclusionProof (.mk rh rnm rl rr2 rnn) (n - flp2 n) (m - flp2 n)
              with
            | error e =>
              have hne := ihr hwr (n - flp2 n) (m - flp2 n)
              rw [hrec] at hne
              exact hne
            | ok ip => simp

/-- Safety: `GetLeaf` on a well-formed tree never dereferences nil. -/
lemma getLeaf_no_panic : ∀ root : Node, wellFormed root = true → ∀ n m : Nat,
    GetLeaf root n m ≠ .error .nilPanic := by
  intro root
  induction root with
  | nil => intro hwf; exact Bool.noConfusion hwf
  | mk h nm l r nn ihl ihr =>
    intro hwf n m
    by_cases hmn : m ≥ n
    · rw [getLeaf_oob _ _ _ hmn]
      simp
    · push_neg at hmn
      by_cases hn1 : n = 1
      · subst hn1
        rw [getLeaf_one _ _ hmn]
        simp
      · rcases l with _ | ⟨lh, lnm, ll, lr2, lnn⟩ <;>
          rcases r with _ | ⟨rh, rnm, rl, rr2, rnn⟩
        · by_cases hk : m < flp2 n
          · rw [getLeaf_left_nil _ _ _ _ _ _ hmn hn1 hk]
            simp
          · rw [getLeaf_right_nil _ _ _ _ _ _ hmn hn1 hk]
            simp
        · exact Bool.noConfusion hwf
        · exact Bool.noConfusion hwf
        · have hwf2 := hwf
          rw [show wellFormed (.mk h nm (.mk lh lnm ll lr2 lnn) (.mk rh rnm rl rr2 rnn) nn)
              = (wellFormed (.mk lh lnm ll lr2 lnn) && wellFormed (.mk rh rnm rl rr2 rnn))
            from rfl, Bool.and_eq_true] at hwf2
          obtain ⟨hwl, hwr⟩ := hwf2
          by_cases hk : m < flp2 n
          · rw [getLeaf_left_step _ _ _ _ _ _ _ _ _ _ _ hmn hn1 hk]
            exact ihl hwl (flp2 n) m
          · rw [getLeaf_right_step _ _ _ _ _ _ _ _ _ _ _ hmn hn1 hk]
            exact ihr hwr (n - flp2 n) (m - flp2 n)

/-- The spec's inner shift of RFC 9162 §2.1.3.2: "right-shift `fn` and `sn`
together while the lowest bit of `fn` is zero and `fn != 0`". -/
def specShift (fn sn : Nat) : Nat × Nat :=
  if h : fn.testBit 0 = false ∧ fn ≠ 0 then specShift (fn >>> 1) (sn >>> 1)
  else (fn, sn)
termination_by fn
decreasing_by
  have h2 : fn >>> 1 = fn / 2 := by rw [Nat.shiftRight_eq_div_pow]
  rw [h2]
  exact Nat.div_lt_self (Nat.pos_of_ne_zero h.2) (by omega)

/-- The verifier fold exactly as the spec words it: fail `ProofSizeMismatch`
on `sn == 0`; if the lowest bit of `fn` is set or `fn == sn`, combine the
sibling on the left and run the inner shift; otherwise combine it on the
right; shift once unconditionally; after the path, fail unless `sn == 0`. -/
def specFold (H : List Nat → List Nat) :
    Nat → Nat → List Nat → List (List Nat) → Except MError (List Nat)
  | _, sn, r, [] => if sn ≠ 0 then .error .proofSizeMismatch else .ok r
  | fn, sn, r, p :: ps =>
    if sn = 0 then .error .proofSizeMismatch
    else if fn.testBit 0 = true ∨ fn = sn then
      specFold H ((specShift fn sn).1 >>> 1) ((specShift fn sn).2 >>> 1)
        (H (1 :: (p ++ r))) ps
    else specFold H (fn >>> 1) (sn >>> 1) (H (1 :: (r ++ p))) ps

lemma shiftRight_one_div (x : Nat) : x >>> 1 = x / 2 := by
  rw [Nat.shiftRight_eq_div_pow]

lemma specShift_eq_shiftWhile : ∀ fn sn : Nat, specShift fn sn = shiftWhile fn sn := by
  intro fn
  induction fn using Nat.strong_induction_on with
  | _ fn ihf =>
    intro sn
    rw [specShift, shiftWhile]
    by_cases hc : fn % 2 = 0 ∧ fn ≠ 0
    · rw [dif_pos (by rw [Nat.testBit_zero]; simp; omega),
        dif_pos hc, shiftRight_one_div, shiftRight_one_div]
      exact ihf (fn / 2) (Nat.div_lt_self (Nat.pos_of_ne_zero hc.2) (by omega)) (sn / 2)
    · rw [dif_neg (by rw [Nat.testBit_zero]; simp; omega), dif_neg hc]

lemma specFold_eq_calcLoop (H : List Nat → List Nat) :
    ∀ ps : List (List Nat), ∀ fn sn : Nat, ∀ r : List Nat,
      specFold H fn sn r ps = calcLoop H ps fn sn r := by
  intro ps
  induction ps with
  | nil => intro fn sn r; rfl
  | cons p ps ihp =>
    intro fn sn r
    simp only [specFold, calcLoop]
    by_cases hsn : sn = 0
    · rw [if_pos hsn, if_pos hsn]
    · rw [if_neg hsn, if_neg hsn]
      have hcond : (fn.testBit 0 = true ∨ fn = sn) ↔ (fn % 2 = 1 ∨ fn = sn) := by
        rw [Nat.testBit_zero]
        simp
      by_cases hc : fn % 2 = 1 ∨ fn = sn
      · rw [if_pos (hcond.mpr hc), if_pos hc, specShift_eq_shiftWhile,
          shiftRight_one_div, shiftRight_one_div]
        exact ihp _ _ _
      · rw [if_neg (fun hcon => hc (hcond.mp hcon)), if_neg hc,
          shiftRight_one_div, shiftRight_one_div]
        exact ihp _ _ _

/-- Executable stand-in hash used by the concrete witnesses. -/
def H0 : List Nat → List Nat := fun l => 7 :: l

/-- Concrete witness leaves, built the way `CreateLeaf` builds them:
hash = `HashLeaf` of the content under the nonce. -/
def w1 : Node := .mk (HashLeaf H0 [10] [1]) "a" .nil .nil [1]

def w2 : Node := .mk (HashLeaf H0 [11] [2]) "b" .nil .nil [2]

def w3 : Node := .mk (HashLeaf H0 [12] [3]) "c" .nil .nil [3]

/-- C1: round-trip correctness: for every non-empty leaf list and every
index `m < n`, verifying the proof generated for leaf `m` against that
leaf's original bytes (the leaf having been created by `HashLeaf` over
those bytes with its nonce) succeeds and reproduces the root hash of
`CreateTree`. -/
theorem C1_round_trip (H : List Nat → List Nat) (leaves : List Node)
    (n m : Nat) (data : List Nat) (hlen : leaves.length = n) (h1 : 1 ≤ n)
    (h64 : n < 2 ^ 64) (hnn : ∀ l ∈ leaves, l ≠ Node.nil) (hm : m < n)
    (hleaf : (leaves.getD m Node.nil).hash
      = HashLeaf H data (leaves.getD m Node.nil).nonce) :
    ∃ ip, GetInclusionProof (CreateTree H leaves) n m = .ok ip ∧
      CalcInclusionProof H ip data = .ok (CreateTree H leaves).hash := by
  obtain ⟨path, hgen, hfold⟩ := built_tree_fold H n leaves hlen h1 h64 hnn m hm
  refine ⟨_, hgen, ?_⟩
  have hB : n ≤ 2 ^ Nat.size (n - 1) := by
    have := Nat.lt_size_self (n - 1)
    omega
  have h := hfold 0 (Nat.size (n - 1)) [] hB
  simp only [zero_mul, zero_add, List.append_nil] at h
  rw [calcLoop_nil, if_neg (by omega)] at h
  show (if m ≥ n then (.error .indexOutOfRange : Except MError (List Nat))
        else calcLoop H path m (n - 1)
          (HashLeaf H data ((leaves.getD m Node.nil).nonce)))
      = .ok (CreateTree H leaves).hash
  rw [if_neg (show ¬ m ≥ n by omega), ← hleaf]
  exact h

theorem C1_round_trip_witness :
    ∃ ip, GetInclusionProof (CreateTree H0 [w1, w2, w3]) 3 2 = .ok ip ∧
      CalcInclusionProof H0 ip [12] = .ok (CreateTree H0 [w1, w2, w3]).hash :=
  C1_round_trip H0 [w1, w2, w3] 3 2 [12] rfl (by omega) (by norm_num)
    (by decide) (by omega) rfl

/-- C2: the verifier is exactly the RFC 9162 §2.1.3.2 iterative fold as the
spec words it (`specFold`, with `specShift` as the inner shift loop),
starting from `fn = leaf_index`, `sn = tree_size - 1`, `r` = leaf hash. -/
theorem C2_verifier_rfc_fold (H : List Nat → List Nat) (proof : InclusionProof)
    (data : List Nat) :
    CalcInclusionProof H proof data =
      if proof.leafIndex ≥ proof.treeSize then .error .indexOutOfRange
      else specFold H proof.leafIndex (proof.treeSize - 1)
        (HashLeaf H data proof.nonce) proof.proof := by
  by_cases h : proof.leafIndex ≥ proof.treeSize
  · show (if proof.leafIndex ≥ proof.treeSize
          then (.error .indexOutOfRange : Except MError (List Nat))
          else calcLoop H proof.proof proof.leafIndex (proof.treeSize - 1)
            (HashLeaf H data proof.nonce)) = _
    rw [if_pos h, if_pos h]
  · show (if proof.leafIndex ≥ proof.treeSize
          then (.error .indexOutOfRange : Except MError (List Nat))
          else calcLoop H proof.proof proof.leafIndex (proof.treeSize - 1)
            (HashLeaf H data proof.nonce)) = _
    rw [if_neg h, if_neg h, specFold_eq_calcLoop]

/-- C3: `CreateTree` is the deterministic recursive construction: empty
list gives the empty-hash node with no children, name or nonce; a
singleton is promoted as-is; `n ≥ 2` leaves split at `flp2 n` and combine
the two recursive hashes under domain tag `0x01`. -/
theorem C3_create_tree (H : List Nat → List Nat) (leaves : List Node)
    (h64 : leaves.length < 2 ^ 64) :
    CreateTree H [] = Node.mk (H []) "" Node.nil Node.nil [] ∧
    (∀ l, CreateTree H [l] = l) ∧
    (2 ≤ leaves.length →
      CreateTree H leaves =
        Node.mk (H (1 :: ((CreateTree H (leaves.take (flp2 leaves.length))).hash ++
                          (CreateTree H (leaves.drop (flp2 leaves.length))).hash))) ""
          (CreateTree H (leaves.take (flp2 leaves.length)))
          (CreateTree H (leaves.drop (flp2 leaves.length))) []) :=
  ⟨createTree_nil H, createTree_singleton H, fun h2 => createTree_split H leaves h2 h64⟩

theorem C3_create_tree_witness :
    CreateTree H0 [] = Node.mk (H0 []) "" Node.nil Node.nil [] ∧
    (∀ l, CreateTree H0 [l] = l) ∧
    (2 ≤ ([w1, w2, w3] : List Node).length →
      CreateTree H0 [w1, w2, w3] =
        Node.mk (H0 (1 ::
            ((CreateTree H0 (([w1, w2, w3] : List Node).take
                (flp2 ([w1, w2, w3] : List Node).length))).hash ++
             (CreateTree H0 (([w1, w2, w3] : List Node).drop
                (flp2 ([w1, w2, w3] : List Node).length))).hash))) ""
          (CreateTree H0 (([w1, w2, w3] : List Node).take
            (flp2 ([w1, w2, w3] : List Node).length)))
          (CreateTree H0 (([w1, w2, w3] : List Node).drop
            (flp2 ([w1, w2, w3] : List Node).length))) []) :=
  C3_create_tree H0 [w1, w2, w3] (by norm_num)

/-- C4: for every 64-bit `n ≥ 2`, `flp2 n` is the largest power of two
strictly below `n`: it is a power of two, `flp2 n < n ≤ 2 * flp2 n`, it
dominates every power of two below `n`, `flp2` of an exact power of two is
its half, and `flp2 3 = 2`, `flp2 5 = 4`. -/
theorem C4_flp2_prev_pow (n : Nat) (h2 : 2 ≤ n) (h64 : n < 2 ^ 64) :
    (∃ j, flp2 n = 2 ^ j) ∧ flp2 n < n ∧ n ≤ 2 * flp2 n ∧
    (∀ j, 2 ^ j < n → 2 ^ j ≤ flp2 n) ∧
    (∀ c, n = 2 ^ (c + 1) → flp2 n = 2 ^ c) ∧
    flp2 3 = 2 ∧ flp2 5 = 4 := by
  obtain ⟨hp1, hlt, hle⟩ := flp2_bounds n h2 h64
  refine ⟨⟨Nat.size (n - 1) - 1, flp2_eq_pow n h2 h64⟩, hlt, hle, ?_, ?_, by rfl, by rfl⟩
  · intro j hj
    rw [flp2_eq_pow n h2 h64]
    have h1 : 2 ^ j ≤ n - 1 := by omega
    have h2s : n - 1 < 2 ^ Nat.size (n - 1) := Nat.lt_size_self (n - 1)
    have hj2 : j < Nat.size (n - 1) := by
      by_contra hcon
      have : (2:Nat) ^ Nat.size (n - 1) ≤ 2 ^ j :=
        Nat.pow_le_pow_right (by omega) (by omega)
      omega
    exact Nat.pow_le_pow_right (by omega) (by omega)
  · intro c hc
    subst hc
    exact flp2_two_pow c h64

theorem C4_flp2_prev_pow_witness :
    (∃ j, flp2 5 = 2 ^ j) ∧ flp2 5 < 5 ∧ 5 ≤ 2 * flp2 5 ∧
    (∀ j, 2 ^ j < 5 → 2 ^ j ≤ flp2 5) ∧
    (∀ c, 5 = 2 ^ (c + 1) → flp2 5 = 2 ^ c) ∧
    flp2 3 = 2 ∧ flp2 5 = 4 :=
  C4_flp2_prev_pow 5 (by omega) (by norm_num)

/-- C5: leaf-locator correctness: `GetLeaf` on a built tree succeeds and
returns exactly the `m`-th leaf node (hence its name and nonce). -/
theorem C5_get_leaf (H : List Nat → List Nat) (leaves : List Node) (n m : Nat)
    (hlen : leaves.length = n) (h1 : 1 ≤ n) (h64 : n < 2 ^ 64)
    (hnn : ∀ l ∈ leaves, l ≠ Node.nil) (hm : m < n) :
    GetLeaf (CreateTree H leaves) n m = .ok (leaves.getD m Node.nil) :=
  getLeaf_built H n leaves hlen h1 h64 hnn m hm

theorem C5_get_leaf_witness :
    GetLeaf (CreateTree H0 [w1, w2, w3]) 3 1
      = .ok (([w1, w2, w3] : List Node).getD 1 Node.nil) :=
  C5_get_leaf H0 [w1, w2, w3] 3 1 rfl (by omega) (by norm_num) (by decide) (by omega)

/-- C6: index-out-of-range rejection: with `m ≥ n`, `GetInclusionProof` and
`GetLeaf` fail with the index error, and `CalcInclusionProof` fails the
same way when the proof's leaf index is not below its tree size. -/
theorem C6_index_out_of_range (root : Node) (n m : Nat) (hn : 1 ≤ n)
    (hmn : m ≥ n) (H : List Nat → List Nat) (ip : InclusionProof)
    (data : List Nat) (hip : ip.leafIndex ≥ ip.treeSize) :
    GetInclusionProof root n m = .error .indexOutOfRange ∧
    GetLeaf root n m = .error .indexOutOfRange ∧
    CalcInclusionProof H ip data = .error .indexOutOfRange := by
  refine ⟨getIP_oob root n m hmn, getLeaf_oob root n m hmn, ?_⟩
  show (if ip.leafIndex ≥ ip.treeSize
        then (.error .indexOutOfRange : Except MError (List Nat))
        else calcLoop H ip.proof ip.leafIndex (ip.treeSize - 1)
          (HashLeaf H data ip.nonce)) = .error .indexOutOfRange
  rw [if_pos hip]

theorem C6_index_out_of_range_witness :
    GetInclusionProof Node.nil 1 5 = .error .indexOutOfRange ∧
    GetLeaf Node.nil 1 5 = .error .indexOutOfRange ∧
    CalcInclusionProof H0 { leafIndex := 3, treeSize := 2, nonce := [9], proof := [] } []
      = .error .indexOutOfRange :=
  C6_index_out_of_range Node.nil 1 5 (by omega) (by omega) H0
    { leafIndex := 3, treeSize := 2, nonce := [9], proof := [] } [] (by decide)

/-- C7: tree-size-mismatch rejection: with `2 ≤ n` and `m < n`, a left
descent from a node with no right child, or a right descent from a node
with no left child, fails with `TreeSizeMismatch` in both
`GetInclusionProof` and `GetLeaf`. -/
theorem C7_tree_size_mismatch (hsh : List Nat) (nm : String) (l r : Node)
    (nn : List Nat) (n m : Nat) (hn : 2 ≤ n) (hm : m < n) :
    (m < flp2 n →
      GetInclusionProof (.mk hsh nm l .nil nn) n m = .error .treeSizeMismatch ∧
      GetLeaf (.mk hsh nm l .nil nn) n m = .error .treeSizeMismatch) ∧
    (¬ m < flp2 n →
      GetInclusionProof (.mk hsh nm .nil r nn) n m = .error .treeSizeMismatch ∧
      GetLeaf (.mk hsh nm .nil r nn) n m = .error .treeSizeMismatch) := by
  constructor
  · intro hk
    exact ⟨getIP_left_nil hsh nm l nn n m hm (by omega) hk,
      getLeaf_left_nil hsh nm l nn n m hm (by omega) hk⟩
  · intro hk
    exact ⟨getIP_right_nil hsh nm r nn n m hm (by omega) hk,
      getLeaf_right_nil hsh nm r nn n m hm (by omega) hk⟩

theorem C7_tree_size_mismatch_witness :
    (0 < flp2 2 →
      GetInclusionProof (.mk [5] "x" w1 .nil [6]) 2 0 = .error .treeSizeMismatch ∧
      GetLeaf (.mk [5] "x" w1 .nil [6]) 2 0 = .error .treeSizeMismatch) ∧
    (¬ 0 < flp2 2 →
      GetInclusionProof (.mk [5] "x" .nil w2 [6]) 2 0 = .error .treeSizeMismatch ∧
      GetLeaf (.mk [5] "x" .nil w2 [6]) 2 0 = .error .treeSizeMismatch) :=
  C7_tree_size_mismatch [5] "x" w1 w2 [6] 2 0 (by omega) (by omega)

/-- C8: the three-leaf scenario: split at `flp2 3 = 2`, root hash
`H(0x01 ‖ H(0x01 ‖ a ‖ b) ‖ c)`, proof for index 2 is the single left
subtree hash, and the proof for index 0 has length 2. -/
theorem C8_three_leaves (H : List Nat → List Nat) (a b c : Node)
    (ha : a ≠ Node.nil) (hb : b ≠ Node.nil) (hc : c ≠ Node.nil) :
    flp2 3 = 2 ∧
    (CreateTree H [a, b, c]).hash
      = H (1 :: (H (1 :: (a.hash ++ b.hash)) ++ c.hash)) ∧
    GetInclusionProof (CreateTree H [a, b, c]) 3 2 =
      .ok { leafIndex := 2, treeSize := 3, nonce := c.nonce,
            proof := [H (1 :: (a.hash ++ b.hash))] } ∧
    (∃ ip, GetInclusionProof (CreateTree H [a, b, c]) 3 0 = .ok ip ∧
      ip.proof = [b.hash, c.hash] ∧ ip.proof.length = 2) := by
  have hf3 : flp2 3 = 2 := rfl
  have hf2 : flp2 2 = 1 := rfl
  have htk3 : List.take (flp2 ([a, b, c] : List Node).length) [a, b, c] = [a, b] := by
    show List.take (flp2 3) [a, b, c] = [a, b]
    rw [hf3]
    rfl
  have hdp3 : List.drop (flp2 ([a, b, c] : List Node).length) [a, b, c] = [c] := by
    show List.drop (flp2 3) [a, b, c] = [c]
    rw [hf3]
    rfl
  have htk2 : List.take (flp2 ([a, b] : List Node).length) [a, b] = [a] := by
    show List.take (flp2 2) [a, b] = [a]
    rw [hf2]
    rfl
  have hdp2 : List.drop (flp2 ([a, b] : List Node).length) [a, b] = [b] := by
    show List.drop (flp2 2) [a, b] = [b]
    rw [hf2]
    rfl
  have hAB : CreateTree H [a, b]
      = Node.mk (H (1 :: (a.hash ++ b.hash))) "" a b [] := by
    rw [createTree_split H [a, b] (by simp) (by norm_num), htk2, hdp2,
      createTree_singleton, createTree_singleton]
  have hABC : CreateTree H [a, b, c]
      = Node.mk (H (1 :: ((H (1 :: (a.hash ++ b.hash))) ++ c.hash))) ""
          (Node.mk (H (1 :: (a.hash ++ b.hash))) "" a b []) c [] := by
    rw [createTree_split H [a, b, c] (by simp) (by norm_num), htk3, hdp3,
      createTree_singleton, hAB, Node.hash_mk]
  rcases a with _ | ⟨ah, anm, al, ar, ann⟩
  · exact absurd rfl ha
  rcases b with _ | ⟨bh, bnm, bl, br, bnn⟩
  · exact absurd rfl hb
  rcases c with _ | ⟨ch, cnm, cl, cr, cnn⟩
  · exact absurd rfl hc
  refine ⟨hf3, ?_, ?_, ?_⟩
  · rw [hABC, Node.hash_mk]
  · rw [hABC,
      getIP_right_step _ _ _ _ _ _ _ _ _ _ _ (by omega) (by omega) (by rw [hf3]; omega),
      hf3, show (3:Nat) - 2 = 1 from rfl, show (2:Nat) - 2 = 0 from rfl,
      getIP_one _ _ _ _ _ _ (by omega)]
    simp [Node.nonce_mk]
  · rw [hABC,
      getIP_left_step _ _ _ _ _ _ _ _ _ _ _ (by omega) (by omega) (by rw [hf3]; omega),
      hf3,
      getIP_left_step _ _ _ _ _ _ _ _ _ _ _ (by omega) (by omega) (by rw [hf2]; omega),
      hf2, getIP_one _ _ _ _ _ _ (by omega)]
    exact ⟨_, rfl, by simp [Node.hash_mk], by simp⟩

theorem C8_three_leaves_witness :
    flp2 3 = 2 ∧
    (CreateTree H0 [w1, w2, w3]).hash
      = H0 (1 :: (H0 (1 :: (w1.hash ++ w2.hash)) ++ w3.hash)) ∧
    GetInclusionProof (CreateTree H0 [w1, w2, w3]) 3 2 =
      .ok { leafIndex := 2, treeSize := 3, nonce := w3.nonce,
            proof := [H0 (1 :: (w1.hash ++ w2.hash))] } ∧
    (∃ ip, GetInclusionProof (CreateTree H0 [w1, w2, w3]) 3 0 = .ok ip ∧
      ip.proof = [w2.hash, w3.hash] ∧ ip.proof.length = 2) :=
  C8_three_leaves H0 w1 w2 w3 (by decide) (by decide) (by decide)

/-- C9: a claimed tree size of 1 (with index 0) triggers no shape check at
all: any present node — leaf or internal — yields a proof with index 0,
size 1, empty path and that node's nonce field; it is never reported as
`TreeSizeMismatch`. -/
theorem C9_size_one_no_shape_check (root : Node) (hroot : root ≠ Node.nil) :
    GetInclusionProof root 1 0 =
      .ok { leafIndex := 0, treeSize := 1, nonce := root.nonce, proof := [] } := by
  match root, hroot with
  | .mk h nm l r nn, _ => exact getIP_one h nm l r nn 0 (by omega)

theorem C9_size_one_no_shape_check_witness :
    GetInclusionProof (.mk [5] "x" w1 w2 []) 1 0 =
      .ok { leafIndex := 0, treeSize := 1,
            nonce := (Node.mk [5] "x" w1 w2 []).nonce, proof := [] } :=
  C9_size_one_no_shape_check (.mk [5] "x" w1 w2 []) (by decide)

/-- C10: on well-formed trees (both children present or neither — the shape
every `CreateTree` output over leaf nodes has) the descents of
`GetInclusionProof` and `GetLeaf` are total: no nil dereference for any
`n`, `m`. -/
theorem C10_no_nil_deref (H : List Nat → List Nat) (leaves : List Node)
    (hleaves : ∀ l ∈ leaves, l.isLeaf = true) (h64 : leaves.length < 2 ^ 64)
    (root : Node) (hwf : wellFormed root = true) (n m : Nat) :
    wellFormed (CreateTree H leaves) = true ∧
    GetInclusionProof root n m ≠ .error .nilPanic ∧
    GetLeaf root n m ≠ .error .nilPanic :=
  ⟨createTree_wf H leaves.length leaves rfl h64 hleaves,
    getIP_no_panic root hwf n m, getLeaf_no_panic root hwf n m⟩

theorem C10_no_nil_deref_witness :
    wellFormed (CreateTree H0 [w1, w2]) = true ∧
    GetInclusionProof (CreateTree H0 [w1, w2, w3]) 5 3 ≠ .error .nilPanic ∧
    GetLeaf (CreateTree H0 [w1, w2, w3]) 5 3 ≠ .error .nilPanic :=
  C10_no_nil_deref H0 [w1, w2] (by decide) (by norm_num)
    (CreateTree H0 [w1, w2, w3])
    (createTree_wf H0 3 [w1, w2, w3] rfl (by norm_num) (by decide)) 5 3

end Merkdir


